import Mathlib

/-!
Shallow embedding of the version-track tool (src/index.js, the split-storage
variant of getUpdatedPackageObject at lines 408-655, which the line references
of the claims point into).

The embedding models:
  * the subprocess probing loop (lines 462-490): for each trackable, every
    candidate command is spawned in order; a candidate with exit status 0 and
    non-empty combined trimmed output overwrites the stored version with its
    ANSI-stripped output (the loop has no break, so a later success overwrites
    an earlier one);
  * the ANSI escape stripping regex (line 483);
  * JavaScript object semantics for the build log: an insertion-ordered
    association list whose observable enumeration order (Object.keys, spread,
    JSON.stringify) places array-index keys first in ascending numeric order;
  * the merge of a build record into the log (lines 494-515): JSON.stringify
    based deduplication against the version bucket, prepend of a new record,
    and the move-to-front reorder of the project version key.
-/

set_option linter.unusedVariables false

/-! ## Subprocess model -/

/-- Result of one spawnSync call: exit status (none models a failed spawn,
where status is null) plus the captured stdout and stderr text. -/
structure SpawnResult where
  status : Option Int
  stdout : String
  stderr : String

/-- An environment assigns a spawn result to each candidate command
(command name followed by arguments, as in the source). -/
abbrev SpawnEnv := List String → SpawnResult

/-- Whitespace trimming of both ends of a character list. -/
def trimChars (l : List Char) : List Char :=
  ((l.dropWhile Char.isWhitespace).reverse.dropWhile Char.isWhitespace).reverse

/-- String.prototype.trim as used on the captured buffers (lines 476, 479).
JavaScript also trims some rarer Unicode whitespace; the claims only involve
ASCII whitespace, where the two agree. -/
def jsTrim (s : String) : String := String.mk (trimChars s.data)

/-- Combined output text of one candidate: trimmed stdout then trimmed stderr,
stdout first (lines 474-480). -/
def combinedOutput (r : SpawnResult) : String := jsTrim r.stdout ++ jsTrim r.stderr

/-! ## ANSI stripping

The source removes escape sequences with the global regex
[ESC,CSI] [[()#;?]* ([0-9]-1-4 (;[0-9]-0-4)*)? [0-9A-ORZcf-nqry=><]
(line 483). The matcher below follows the backtracking order of the
JavaScript regex engine. Two greedy positions never need to backtrack and
are therefore written as plain greedy scans: giving back an intermediate
byte of [[()#;?]* cannot help, because none of those bytes is a digit or a
final byte, and giving back a whole (;[0-9]-0-4) repetition cannot help,
because the semicolon it starts with is not a final byte. Digit counts do
backtrack, which matters: digits are also final bytes. -/

/-- Bytes matched by the [[()#;?] class of the regex. -/
def isIntermediateByte (c : Char) : Bool :=
  c == '[' || c == '(' || c == ')' || c == '#' || c == ';' || c == '?'

/-- Bytes matched by the final class [0-9A-ORZcf-nqry=><] of the regex. -/
def isFinalByte (c : Char) : Bool :=
  c.isDigit || (decide ('A' ≤ c) && decide (c ≤ 'O')) || c == 'R' || c == 'Z' ||
  c == 'c' || (decide ('f' ≤ c) && decide (c ≤ 'n')) || c == 'q' || c == 'r' ||
  c == 'y' || c == '=' || c == '>' || c == '<'

/-- Match the single final byte of the escape sequence. -/
def matchFinal : List Char → Option (List Char)
  | c :: rest => if isFinalByte c then some rest else none
  | [] => none

/-- Greedily match up to n digits, backtracking into the continuation k. -/
def matchDigitsUpTo : Nat → (List Char → Option (List Char)) → List Char →
    Option (List Char)
  | 0, k, s => k s
  | _ + 1, k, [] => k []
  | n + 1, k, c :: rest =>
    if c.isDigit then
      match matchDigitsUpTo n k rest with
      | some r => some r
      | none => k (c :: rest)
    else k (c :: rest)

/-- Greedily match the (;[0-9]-0-4)* repetition and then the final byte.
The fuel argument bounds the recursion depth; every repetition consumes at
least the leading semicolon, so fuel equal to the list length suffices. -/
def matchStarFinal : Nat → List Char → Option (List Char)
  | _, [] => none
  | 0, s => matchFinal s
  | fuel + 1, c :: rest =>
    if c == ';' then
      match matchDigitsUpTo 4 (matchStarFinal fuel) rest with
      | some r => some r
      | none => matchFinal (c :: rest)
    else matchFinal (c :: rest)

/-- Greedily consume the [[()#;?]* intermediate bytes. -/
def skipIntermediates : List Char → List Char
  | c :: rest => if isIntermediateByte c then skipIntermediates rest else c :: rest
  | [] => []

/-- Match the part of the regex after the introducer byte. -/
def matchAfterIntro (s : List Char) : Option (List Char) :=
  let s1 := skipIntermediates s
  match s1 with
  | [] => none
  | c :: rest =>
    if c.isDigit then
      match matchDigitsUpTo 3 (fun s2 => matchStarFinal s2.length s2) rest with
      | some r => some r
      | none => matchFinal s1
    else matchFinal s1

/-- Remove every match of the escape sequence regex, scanning left to right
and resuming after each match, as String.prototype.replace with the g flag.
The fuel argument bounds the scan; the initial call passes the list length,
which suffices because every step consumes at least one character. -/
def stripAnsiChars : Nat → List Char → List Char
  | _, [] => []
  | 0, s => s
  | fuel + 1, c :: rest =>
    if c == Char.ofNat 27 || c == Char.ofNat 155 then
      match matchAfterIntro rest with
      | some rem => stripAnsiChars fuel rem
      | none => c :: stripAnsiChars fuel rest
    else c :: stripAnsiChars fuel rest

/-- ANSI escape code removal of line 483. -/
def stripAnsi (s : String) : String :=
  String.mk (stripAnsiChars s.data.length s.data)

/-! ## The probe loop (lines 462-490) -/

/-- One iteration of the candidate loop (lines 466-487): spawn the candidate;
on nonzero or null status keep the current value; on status 0 with non-empty
combined trimmed output, replace the current value with the ANSI-stripped
output; on status 0 with empty output keep the current value. -/
def candidateStep (env : SpawnEnv) (cur : Option String) (eachCommand : List String) :
    Option String :=
  let result := env eachCommand
  if result.status ≠ some 0 then cur
  else
    let output := combinedOutput result
    if output.length > 0 then some (stripAnsi output) else cur

/-- The probe of one trackable: fold the candidate loop over the command list,
starting from null. The source loop has no break, so every candidate is
spawned and a later success overwrites an earlier one. -/
def probe (env : SpawnEnv) (versionCommands : List (List String)) : Option String :=
  versionCommands.foldl (candidateStep env) none

/-- A candidate succeeds when it exits with status 0 and its combined trimmed
output is non-empty (the test of lines 470 and 481, taken before stripping). -/
def succeedsB (env : SpawnEnv) (c : List String) : Bool :=
  decide ((env c).status = some 0 ∧ 0 < (combinedOutput (env c)).length)

/-! ## JavaScript object model

A JavaScript object is modelled as an insertion-ordered association list.
Own-property enumeration (Object.keys, spread, JSON.stringify) lists
array-index keys first in ascending numeric order, then the remaining keys
in insertion order; property assignment to an existing key updates the value
in place without changing its position. -/

/-- Insertion-ordered association list standing for a JavaScript object. -/
abbrev JsObj (α : Type) := List (String × α)

/-- Whether the object has an own property named k. -/
def jsHas {α : Type} (o : JsObj α) (k : String) : Bool :=
  o.any (fun p => p.1 == k)

/-- Property read: the value stored under k, if any. -/
def jsGet {α : Type} (o : JsObj α) (k : String) : Option α :=
  (o.find? (fun p => p.1 == k)).map Prod.snd

/-- Property assignment: update in place when k is present, else append. -/
def jsSet {α : Type} (o : JsObj α) (k : String) (v : α) : JsObj α :=
  if jsHas o k then o.map (fun p => if p.1 == k then (k, v) else p)
  else o ++ [(k, v)]

/-- The delete operator: remove the property named k. -/
def jsDelete {α : Type} (o : JsObj α) (k : String) : JsObj α :=
  o.filter (fun p => !(p.1 == k))

/-- Decimal value of a digit string. -/
def decNat (l : List Char) : Nat :=
  l.foldl (fun acc c => 10 * acc + (c.toNat - 48)) 0

/-- An ECMAScript array-index property key: the canonical decimal numeral of
an integer below 2^32 - 1 (ToString(ToUint32(key)) = key). Such keys
enumerate before all other keys, in ascending numeric order. -/
def keyAsIndex (s : String) : Option Nat :=
  if s.data ≠ [] ∧ s.data.all Char.isDigit then
    let n := decNat s.data
    if n < 4294967295 ∧ Nat.repr n = s then some n else none
  else none

/-- Numeric value used to order array-index keys (0 for non-index keys,
which never reach the sort). -/
def idxVal {α : Type} (p : String × α) : Nat := (keyAsIndex p.1).getD 0

/-- Whether a stored pair has an array-index key. -/
def isIdxPair {α : Type} (p : String × α) : Bool := (keyAsIndex p.1).isSome

/-- Ordering of array-index pairs by numeric key value. -/
def idxLe {α : Type} (p q : String × α) : Prop := idxVal p ≤ idxVal q

instance {α : Type} : DecidableRel (idxLe (α := α)) :=
  fun p q => Nat.decLe (idxVal p) (idxVal q)

instance {α : Type} : IsTotal (String × α) idxLe :=
  ⟨fun p q => Nat.le_total (idxVal p) (idxVal q)⟩

instance {α : Type} : IsTrans (String × α) idxLe :=
  ⟨fun p q r h1 h2 => Nat.le_trans h1 h2⟩

/-- Ascending sort of array-index pairs by numeric key value. -/
def sortByIdx {α : Type} (l : JsObj α) : JsObj α := List.insertionSort idxLe l

/-- Own-property enumeration order: array-index keys ascending, then the
remaining keys in insertion order. -/
def enumKeysOrder {α : Type} (o : JsObj α) : JsObj α :=
  sortByIdx (o.filter isIdxPair) ++ o.filter (fun p => !(isIdxPair p))

/-- Object.keys: the key list in enumeration order. -/
def jsKeys {α : Type} (o : JsObj α) : List String :=
  (enumKeysOrder o).map Prod.fst

/-- Assign every listed pair in order onto an accumulator object. -/
def jsSetAll {α : Type} (acc : JsObj α) (l : List (String × α)) : JsObj α :=
  l.foldl (fun a p => jsSet a p.1 p.2) acc

/-- Spread of src into an object literal that already holds acc: assign the
own properties of src in enumeration order. -/
def jsSpreadInto {α : Type} (acc : JsObj α) (src : JsObj α) : JsObj α :=
  jsSetAll acc (enumKeysOrder src)

/-! ## Build records and JSON serialization -/

/-- One build record (the versionEntry of lines 457-460): the platform
identifier and the per-trackable probe outcomes, as a JavaScript object. -/
structure BuildRecord where
  platform : String
  executables : JsObj (Option String)
deriving DecidableEq

/-- Lowercase hexadecimal digit. -/
def toHexDigit (n : Nat) : Char :=
  Char.ofNat (if n < 10 then 48 + n else 87 + n)

/-- JSON.stringify escaping of one character inside a string literal. -/
def jsonEscapeChar (c : Char) : String :=
  if c == '"' then "\\\""
  else if c == '\\' then "\\\\"
  else if c == Char.ofNat 8 then "\\b"
  else if c == Char.ofNat 9 then "\\t"
  else if c == Char.ofNat 10 then "\\n"
  else if c == Char.ofNat 12 then "\\f"
  else if c == Char.ofNat 13 then "\\r"
  else if c.toNat < 32 then
    "\\u00" ++ String.mk [toHexDigit (c.toNat / 16), toHexDigit (c.toNat % 16)]
  else String.mk [c]

/-- JSON.stringify of a string value. -/
def jsonQuote (s : String) : String :=
  "\"" ++ String.join (s.data.map jsonEscapeChar) ++ "\""

/-- JSON.stringify of one probe outcome (null or a string). -/
def serializeOutcome : Option String → String
  | none => "null"
  | some s => jsonQuote s

/-- JSON.stringify of the executables object: members in enumeration order. -/
def serializeExecutables (o : JsObj (Option String)) : String :=
  "\x7b" ++ String.intercalate ","
    ((enumKeysOrder o).map (fun p => jsonQuote p.1 ++ ":" ++ serializeOutcome p.2))
    ++ "\x7d"

/-- JSON.stringify of a build record, as used for deduplication (line 494):
platform first, then executables, matching the construction order of the
versionEntry object. -/
def serializeRecord (r : BuildRecord) : String :=
  "\x7b" ++ jsonQuote "platform" ++ ":" ++ jsonQuote r.platform ++ "," ++
    jsonQuote "executables" ++ ":" ++ serializeExecutables r.executables ++ "\x7d"

/-! ## Trackables and the version entry builder -/

/-- One entry of versionTracker.track as the code consumes it: the name and
the candidate command lists may each be missing (undefined or of the wrong
shape), which the code tolerates. -/
structure RawTrackable where
  name : Option String
  versionCommands : Option (List (List String))
deriving DecidableEq

/-- The property key actually used for a trackable: a missing name is
coerced by JavaScript to the string "undefined". -/
def jsKeyOf : Option String → String
  | some s => s
  | none => "undefined"

/-- The default tracking info substituted when versionTracker.track is not
an array (lines 441-445). -/
def defaultTrackingInfo : List RawTrackable :=
  [⟨some "node", some [["node", "--version"]]⟩,
   ⟨some "npm", some [["npm", "-v"]]⟩,
   ⟨some "git", some [["git", "--version"]]⟩]

/-- Processing of one trackable (lines 462-490): first store null under the
trackable's key, then, when versionCommands is an array, run the candidate
loop; each succeeding candidate overwrites the same key, so the surviving
value is the probe result. -/
def trackStep (env : SpawnEnv) (exes : JsObj (Option String)) (t : RawTrackable) :
    JsObj (Option String) :=
  let key := jsKeyOf t.name
  let withNull := jsSet exes key none
  match t.versionCommands with
  | none => withNull
  | some cmds => jsSet withNull key (probe env cmds)

/-- The executables object of the version entry. -/
def buildExecutables (env : SpawnEnv) (track : List RawTrackable) :
    JsObj (Option String) :=
  track.foldl (trackStep env) []

/-- The version entry assembled for the current run (lines 457-490). -/
def buildRecord (env : SpawnEnv) (platform : String) (track : List RawTrackable) :
    BuildRecord :=
  ⟨platform, buildExecutables env track⟩

/-! ## The build log and the merge (lines 494-515) -/

/-- The successful-builds log: project version strings mapping to buckets of
build records, newest first. -/
abbrev BuildLog := JsObj (List BuildRecord)

/-- The merge of one build record into the log for one project version,
exactly the steps of lines 494-515: shallow spread copy of the log, creation
of an empty bucket when the version key is missing, JSON.stringify
deduplication against the bucket, prepend of a new record with the version
key moved to the front, and the final unconditional move-to-front reorder of
the version key. -/
def mergeLog (log : BuildLog) (projectVersion : String) (record : BuildRecord) :
    BuildLog :=
  let entryAsString := serializeRecord record
  let sb0 := jsSpreadInto [] log
  let sb1 := if jsHas sb0 projectVersion then sb0 else jsSet sb0 projectVersion []
  let bucket := (jsGet sb1 projectVersion).getD []
  let entriesAsStrings := bucket.map serializeRecord
  let sb2 :=
    if entryAsString ∈ entriesAsStrings then sb1
    else jsSpreadInto (jsSet [] projectVersion (record :: bucket))
      (jsDelete sb1 projectVersion)
  jsSpreadInto (jsSet [] projectVersion ((jsGet sb2 projectVersion).getD [])) sb2

/-- The log-updating core of getUpdatedPackageObject (lines 438-517),
returning the newLog component. The version field is a string or absent
(absent models any non-string value, replaced by "0.0.0" at line 450); the
track field is a list or absent (absent models any non-array value, replaced
by the defaults at line 449); platform stands for process.platform. -/
def getUpdatedPackageObject (env : SpawnEnv) (platform : String)
    (version : Option String) (track : Option (List RawTrackable))
    (log : BuildLog) : BuildLog :=
  let track := track.getD defaultTrackingInfo
  let projectVersion := version.getD "0.0.0"
  let versionEntry := buildRecord env platform track
  mergeLog log projectVersion versionEntry

/-! ## Lemmas about the probe loop -/

theorem candidateStep_of_not_succ {env : SpawnEnv} {c : List String}
    (h : succeedsB env c = false) (cur : Option String) :
    candidateStep env cur c = cur := by
  unfold candidateStep
  rw [succeedsB, decide_eq_false_iff_not, not_and, not_lt] at h
  by_cases hs : (env c).status = some 0
  · have hlen : ¬ (combinedOutput (env c)).length > 0 := by
      have := h hs
      omega
    simp [hs, hlen]
  · simp [hs]

theorem candidateStep_of_succ {env : SpawnEnv} {c : List String}
    (h : succeedsB env c = true) (cur : Option String) :
    candidateStep env cur c = some (stripAnsi (combinedOutput (env c))) := by
  unfold candidateStep
  rw [succeedsB, decide_eq_true_eq] at h
  simp [h.1, h.2]

theorem foldl_candidateStep_of_no_succ {env : SpawnEnv} :
    ∀ {cmds : List (List String)}, cmds.filter (succeedsB env) = [] →
      ∀ init, cmds.foldl (candidateStep env) init = init
  | [], _, init => rfl
  | c :: rest, h, init => by
    by_cases hc : succeedsB env c = true
    · rw [List.filter_cons_of_pos hc] at h
      exact absurd h (List.cons_ne_nil _ _)
    · have hc' : succeedsB env c = false := Bool.eq_false_iff.mpr hc
      rw [List.filter_cons_of_neg hc] at h
      rw [List.foldl_cons, candidateStep_of_not_succ hc']
      exact foldl_candidateStep_of_no_succ h init

theorem foldl_candidateStep_isSome {env : SpawnEnv} :
    ∀ (cmds : List (List String)) (init : Option String),
      (cmds.foldl (candidateStep env) init).isSome =
        (init.isSome || cmds.any (succeedsB env))
  | [], init => by simp
  | c :: rest, init => by
    rw [List.foldl_cons, foldl_candidateStep_isSome rest, List.any_cons]
    by_cases hc : succeedsB env c = true
    · rw [candidateStep_of_succ hc, hc]
      simp
    · have hc' : succeedsB env c = false := Bool.eq_false_iff.mpr hc
      rw [candidateStep_of_not_succ hc', hc']
      simp

theorem foldl_candidateStep_last {env : SpawnEnv} :
    ∀ (cmds : List (List String)) (init : Option String) {c : List String},
      (cmds.filter (succeedsB env)).getLast? = some c →
      cmds.foldl (candidateStep env) init =
        some (stripAnsi (combinedOutput (env c)))
  | [], init, c, h => by simp at h
  | c0 :: rest, init, c, h => by
    by_cases hc : succeedsB env c0 = true
    · rw [List.filter_cons_of_pos hc] at h
      rw [List.foldl_cons, candidateStep_of_succ hc]
      rcases hr : rest.filter (succeedsB env) with _ | ⟨d, ds⟩
      · rw [hr] at h
        simp only [List.getLast?_singleton, Option.some.injEq] at h
        rw [foldl_candidateStep_of_no_succ hr, h]
      · rw [hr, List.getLast?_cons_cons, ← hr] at h
        exact foldl_candidateStep_last rest _ h
    · have hc' : succeedsB env c0 = false := Bool.eq_false_iff.mpr hc
      rw [List.filter_cons_of_neg hc] at h
      rw [List.foldl_cons, candidateStep_of_not_succ hc']
      exact foldl_candidateStep_last rest _ h

/-! ## Lemmas about the JavaScript object model -/

theorem jsHas_iff {α : Type} {o : JsObj α} {k : String} :
    jsHas o k = true ↔ k ∈ o.map Prod.fst := by
  rw [jsHas, List.any_eq_true]
  constructor
  · rintro ⟨p, hp, he⟩
    exact List.mem_map.mpr ⟨p, hp, by simpa using he⟩
  · intro hm
    obtain ⟨p, hp, he⟩ := List.mem_map.mp hm
    exact ⟨p, hp, by simpa using he⟩

theorem jsHas_false_iff {α : Type} {o : JsObj α} {k : String} :
    jsHas o k = false ↔ k ∉ o.map Prod.fst := by
  rw [← Bool.not_eq_true, not_iff_not]
  exact jsHas_iff

theorem jsGet_eq_none_iff {α : Type} {o : JsObj α} {k : String} :
    jsGet o k = none ↔ k ∉ o.map Prod.fst := by
  simp only [jsGet, Option.map_eq_none', List.find?_eq_none, beq_iff_eq,
    List.mem_map]
  constructor
  · rintro h ⟨p, hp, he⟩
    exact h p hp he
  · rintro h p hp he
    exact h ⟨p, hp, he⟩

theorem jsGet_cons_self {α : Type} (v : String) (b : α) (o : JsObj α) :
    jsGet ((v, b) :: o) v = some b := by
  unfold jsGet
  rw [List.find?_cons_of_pos _ (by simp)]
  rfl

theorem jsGet_cons_ne {α : Type} {v k : String} (h : k ≠ v) (b : α) (o : JsObj α) :
    jsGet ((v, b) :: o) k = jsGet o k := by
  unfold jsGet
  rw [List.find?_cons_of_neg _ (by simp [h.symm])]

theorem jsGet_mem {α : Type} {o : JsObj α} {k : String} {b : α}
    (h : jsGet o k = some b) : (k, b) ∈ o := by
  unfold jsGet at h
  obtain ⟨p, hfind, hmap⟩ := Option.map_eq_some'.mp h
  have hp := List.mem_of_find?_eq_some hfind
  have hpk : p.1 = k := by simpa using List.find?_some hfind
  have hpe : p = (k, b) := by
    cases p
    simp only at hpk hmap
    rw [hpk, hmap]
  rwa [hpe] at hp

theorem jsGet_of_mem_nodup {α : Type} :
    ∀ {o : JsObj α} {k : String} {b : α},
      (o.map Prod.fst).Nodup → (k, b) ∈ o → jsGet o k = some b
  | [], k, b, _, hm => absurd hm (List.not_mem_nil _)
  | (k0, b0) :: rest, k, b, hnd, hm => by
    rcases List.mem_cons.mp hm with he | hm'
    · rw [(Prod.mk.injEq .. ▸ he : (k, b).1 = k0 ∧ (k, b).2 = b0).1.symm,
        (Prod.mk.injEq .. ▸ he : (k, b).1 = k0 ∧ (k, b).2 = b0).2.symm]
      exact jsGet_cons_self k b rest
    · have hk : k ≠ k0 := by
        intro he
        subst he
        have hmem : k ∈ rest.map Prod.fst := List.mem_map.mpr ⟨(k, b), hm', rfl⟩
        rw [List.map_cons, List.nodup_cons] at hnd
        exact hnd.1 hmem
      rw [jsGet_cons_ne hk]
      exact jsGet_of_mem_nodup (by rw [List.map_cons, List.nodup_cons] at hnd; exact hnd.2) hm'

theorem jsGet_perm_nodup {α : Type} {o o' : JsObj α} (hp : List.Perm o o')
    (hnd : (o.map Prod.fst).Nodup) (k : String) : jsGet o k = jsGet o' k := by
  have hnd' : (o'.map Prod.fst).Nodup := ((hp.map Prod.fst).nodup_iff).mp hnd
  cases hg : jsGet o k with
  | none =>
    have hk := jsGet_eq_none_iff.mp hg
    symm
    apply jsGet_eq_none_iff.mpr
    intro hmem
    exact hk (((hp.map Prod.fst).mem_iff).mpr hmem)
  | some b =>
    exact (jsGet_of_mem_nodup hnd' (hp.mem_iff.mp (jsGet_mem hg))).symm

theorem jsGet_isSome_of_has {α : Type} {o : JsObj α} {k : String}
    (h : jsHas o k = true) : (jsGet o k).isSome = true := by
  cases hg : jsGet o k with
  | none => exact absurd (jsHas_iff.mp h) (jsGet_eq_none_iff.mp hg)
  | some b => rfl

theorem jsSet_of_not_has {α : Type} {o : JsObj α} {k : String} (h : jsHas o k = false)
    (v : α) : jsSet o k v = o ++ [(k, v)] := by
  simp [jsSet, h]

theorem map_update_of_not_mem {α : Type} {v : String} {w : α} :
    ∀ {o : JsObj α}, v ∉ o.map Prod.fst →
      o.map (fun p => if p.1 == v then (v, w) else p) = o
  | [], _ => rfl
  | p :: rest, h => by
    have h1 : ¬ p.1 = v := fun he => h (List.mem_map.mpr ⟨p, List.mem_cons_self p rest, he⟩)
    have h2 : v ∉ rest.map Prod.fst := fun hm =>
      h (by rw [List.map_cons]; exact List.mem_cons_of_mem _ hm)
    rw [List.map_cons, if_neg (by simpa using h1), map_update_of_not_mem h2]

theorem jsDelete_cons_self {α : Type} (v : String) (b : α) (o : JsObj α) :
    jsDelete ((v, b) :: o) v = jsDelete o v := by
  simp [jsDelete]

theorem jsDelete_cons_ne {α : Type} {v k : String} (h : k ≠ v) (b : α) (o : JsObj α) :
    jsDelete ((k, b) :: o) v = (k, b) :: jsDelete o v := by
  simp [jsDelete, h]

theorem jsDelete_eq_self_of_not_mem {α : Type} {o : JsObj α} {v : String}
    (h : v ∉ o.map Prod.fst) : jsDelete o v = o := by
  apply List.filter_eq_self.mpr
  intro p hp
  simp only [Bool.not_eq_true', beq_eq_false_iff_ne, ne_eq]
  intro he
  exact h (List.mem_map.mpr ⟨p, hp, he⟩)

theorem keys_delete {α : Type} (o : JsObj α) (v : String) :
    (jsDelete o v).map Prod.fst = (o.map Prod.fst).filter (fun s => !(s == v)) := by
  induction o with
  | nil => rfl
  | cons p rest ih =>
    by_cases hp : p.1 = v
    · cases p
      simp only at hp
      subst hp
      rw [jsDelete_cons_self, List.map_cons, List.filter_cons_of_neg (by simp)]
      exact ih
    · cases p
      rw [jsDelete_cons_ne hp, List.map_cons, List.map_cons,
        List.filter_cons_of_pos (by simpa using hp)]
      rw [ih]

theorem not_mem_keys_delete {α : Type} (o : JsObj α) (v : String) :
    v ∉ (jsDelete o v).map Prod.fst := by
  rw [keys_delete]
  intro hm
  have := List.of_mem_filter hm
  simp at this

theorem nodup_keys_delete {α : Type} {o : JsObj α} (v : String)
    (h : (o.map Prod.fst).Nodup) : ((jsDelete o v).map Prod.fst).Nodup := by
  rw [keys_delete]
  exact h.filter _

theorem jsDelete_delete {α : Type} (o : JsObj α) (v : String) :
    jsDelete (jsDelete o v) v = jsDelete o v :=
  jsDelete_eq_self_of_not_mem (not_mem_keys_delete o v)

theorem jsGet_append_singleton {α : Type} {o : JsObj α} {v : String}
    (h : v ∉ o.map Prod.fst) (b : α) : jsGet (o ++ [(v, b)]) v = some b := by
  induction o with
  | nil => exact jsGet_cons_self v b []
  | cons p rest ih =>
    have h1 : ¬ v = p.1 := fun he =>
      h (by rw [List.map_cons]; exact List.mem_cons.mpr (Or.inl he))
    have h2 : v ∉ rest.map Prod.fst := fun hm =>
      h (by rw [List.map_cons]; exact List.mem_cons_of_mem _ hm)
    cases p
    rw [List.cons_append, jsGet_cons_ne h1]
    exact ih h2

theorem jsDelete_append {α : Type} (o o' : JsObj α) (v : String) :
    jsDelete (o ++ o') v = jsDelete o v ++ jsDelete o' v :=
  List.filter_append o o'

theorem jsHas_append {α : Type} (o o' : JsObj α) (k : String) :
    jsHas (o ++ o') k = (jsHas o k || jsHas o' k) :=
  List.any_append

theorem jsSetAll_nil {α : Type} (acc : JsObj α) : jsSetAll acc [] = acc := rfl

theorem jsSetAll_cons {α : Type} (acc : JsObj α) (p : String × α)
    (l : List (String × α)) :
    jsSetAll acc (p :: l) = jsSetAll (jsSet acc p.1 p.2) l := rfl

theorem jsSetAll_disjoint {α : Type} :
    ∀ (l : List (String × α)) (acc : JsObj α),
      (l.map Prod.fst).Nodup →
      (∀ k ∈ l.map Prod.fst, jsHas acc k = false) →
      jsSetAll acc l = acc ++ l
  | [], acc, _, _ => by simp [jsSetAll]
  | (k, w) :: rest, acc, hnd, h => by
    rw [jsSetAll_cons, jsSet_of_not_has (h k (by simp))]
    rw [List.map_cons, List.nodup_cons] at hnd
    rw [jsSetAll_disjoint rest (acc ++ [(k, w)]) hnd.2]
    · simp
    · intro k2 hk2
      rw [jsHas_append]
      have hk2k : ¬ k2 = k := fun he => hnd.1 (he ▸ hk2)
      rw [h k2 (by simp [hk2])]
      simp only [jsHas, List.any_cons, List.any_nil, Bool.or_false, Bool.false_or,
        beq_eq_false_iff_ne, ne_eq]
      exact fun he => hk2k he.symm

theorem jsSetAll_front {α : Type} {v : String} :
    ∀ (l : List (String × α)) (acc : JsObj α) (x : α),
      v ∉ acc.map Prod.fst →
      (l.map Prod.fst).Nodup →
      (∀ k ∈ l.map Prod.fst, k ∉ acc.map Prod.fst) →
      jsSetAll ((v, x) :: acc) l =
        (v, (jsGet l v).getD x) :: (acc ++ jsDelete l v)
  | [], acc, x, _, _, _ => by simp [jsSetAll, jsGet, jsDelete]
  | (k, w) :: rest, acc, x, hva, hnd, hdisj => by
    rw [List.map_cons, List.nodup_cons] at hnd
    have hnd1 : k ∉ rest.map Prod.fst := hnd.1
    have hnd2 : (rest.map Prod.fst).Nodup := hnd.2
    by_cases hkv : k = v
    · subst hkv
      have hset : jsSet ((k, x) :: acc) k w = (k, w) :: acc := by
        rw [jsSet, if_pos (by simp [jsHas])]
        rw [List.map_cons, if_pos (by simp), map_update_of_not_mem hva]
      rw [jsSetAll_cons, hset,
        jsSetAll_front rest acc w hva hnd2
          (fun k2 hk2 => hdisj k2 (by simp [hk2]))]
      rw [jsGet_eq_none_iff.mpr hnd1]
      rw [jsGet_cons_self, jsDelete_cons_self,
        jsDelete_eq_self_of_not_mem hnd1]
      simp
    · have hka : k ∉ acc.map Prod.fst := hdisj k (by simp)
      have hset : jsSet ((v, x) :: acc) k w = (v, x) :: (acc ++ [(k, w)]) := by
        rw [jsSet, if_neg]
        · simp
        · rw [jsHas_iff]
          intro hm
          rw [List.map_cons] at hm
          rcases List.mem_cons.mp hm with he | hm'
          · exact hkv he
          · exact hka hm'
      rw [jsSetAll_cons, hset,
        jsSetAll_front rest (acc ++ [(k, w)]) x
          (by rw [List.map_append]; intro hm
              rcases List.mem_append.mp hm with hm' | hm'
              · exact hva hm'
              · simp at hm'
                exact hkv hm'.symm)
          hnd2
          (fun k2 hk2 => by
            rw [List.map_append]
            intro hm
            rcases List.mem_append.mp hm with hm' | hm'
            · exact hdisj k2 (by simp [hk2]) hm'
            · simp at hm'
              exact hnd1 (hm' ▸ hk2))]
      rw [jsGet_cons_ne (fun he => hkv he.symm), jsDelete_cons_ne hkv]
      simp

/-! ## Lemmas about the enumeration order -/

theorem sortByIdx_perm {α : Type} (l : JsObj α) : List.Perm (sortByIdx l) l :=
  List.perm_insertionSort idxLe l

theorem sortByIdx_sorted {α : Type} (l : JsObj α) :
    List.Sorted idxLe (sortByIdx l) :=
  List.sorted_insertionSort idxLe l

theorem sortByIdx_eq_of_sorted {α : Type} {l : JsObj α}
    (h : List.Sorted idxLe l) : sortByIdx l = l :=
  h.insertionSort_eq

theorem enum_perm {α : Type} (o : JsObj α) : List.Perm (enumKeysOrder o) o :=
  ((sortByIdx_perm (o.filter isIdxPair)).append_right _).trans
    (List.filter_append_perm isIdxPair o)

theorem mem_enum_parts_idx {α : Type} {o : JsObj α} {p : String × α}
    (hp : p ∈ sortByIdx (o.filter isIdxPair)) : isIdxPair p = true :=
  List.of_mem_filter ((sortByIdx_perm _).mem_iff.mp hp)

theorem keyAsIndex_eq_repr {s : String} {n : Nat} (h : keyAsIndex s = some n) :
    s = Nat.repr n := by
  simp only [keyAsIndex] at h
  split_ifs at h with h1 h2
  · rw [Option.some_inj] at h
    rw [← h]
    exact h2.2.symm

theorem nodup_idxVal_of {α : Type} {l : JsObj α}
    (hidx : ∀ p ∈ l, isIdxPair p = true)
    (hnd : (l.map Prod.fst).Nodup) : (l.map idxVal).Nodup := by
  have hlnd : l.Nodup := hnd.of_map
  apply hlnd.map_on
  intro p hp q hq he
  obtain ⟨a, ha⟩ := Option.isSome_iff_exists.mp (hidx p hp)
  obtain ⟨b, hb⟩ := Option.isSome_iff_exists.mp (hidx q hq)
  have hva : idxVal p = a := by rw [idxVal, ha]; rfl
  have hvb : idxVal q = b := by rw [idxVal, hb]; rfl
  have hab : a = b := by rw [← hva, ← hvb, he]
  have hkeys : p.1 = q.1 := by
    rw [keyAsIndex_eq_repr ha, keyAsIndex_eq_repr hb, hab]
  exact List.inj_on_of_nodup_map hnd hp hq hkeys

theorem sorted_perm_eq_of_nodup_idx {α : Type} :
    ∀ {l₁ l₂ : JsObj α}, List.Perm l₁ l₂ → List.Sorted idxLe l₁ →
      List.Sorted idxLe l₂ → (l₁.map idxVal).Nodup → l₁ = l₂
  | [], l₂, hp, _, _, _ => by
    rw [hp.symm.eq_nil]
  | a :: t₁, [], hp, _, _, _ => absurd hp.eq_nil (List.cons_ne_nil a t₁)
  | a :: t₁, b :: t₂, hp, hs₁, hs₂, hnd => by
    obtain ⟨hs1a, hs1t⟩ := List.sorted_cons.mp hs₁
    obtain ⟨hs2a, hs2t⟩ := List.sorted_cons.mp hs₂
    have hab : a = b := by
      have ha2 : a ∈ b :: t₂ := hp.mem_iff.mp (List.mem_cons_self a t₁)
      have hb1 : b ∈ a :: t₁ := hp.mem_iff.mpr (List.mem_cons_self b t₂)
      rcases List.mem_cons.mp ha2 with he | ha2'
      · exact he
      · rcases List.mem_cons.mp hb1 with he | hb1'
        · exact he.symm
        · exfalso
          have h1 : idxVal a ≤ idxVal b := hs1a b hb1'
          have h2 : idxVal b ≤ idxVal a := hs2a a ha2'
          have heq : idxVal b = idxVal a := Nat.le_antisymm h2 h1
          rw [List.map_cons, List.nodup_cons] at hnd
          exact hnd.1 (heq ▸ List.mem_map.mpr ⟨b, hb1', rfl⟩)
    subst hab
    have ht : t₁ = t₂ := sorted_perm_eq_of_nodup_idx hp.cons_inv hs1t hs2t
      (by rw [List.map_cons, List.nodup_cons] at hnd; exact hnd.2)
    rw [ht]

theorem enum_of_parts {α : Type} {A B : JsObj α}
    (hA : ∀ p ∈ A, isIdxPair p = true) (hB : ∀ p ∈ B, isIdxPair p = false)
    (hS : List.Sorted idxLe A) : enumKeysOrder (A ++ B) = A ++ B := by
  rw [enumKeysOrder, List.filter_append, List.filter_append]
  rw [List.filter_eq_self.mpr hA,
    List.filter_eq_nil_iff.mpr (fun p hp => by rw [hB p hp]; exact Bool.false_ne_true),
    List.filter_eq_nil_iff.mpr (fun p hp => by simp [hA p hp]),
    List.filter_eq_self.mpr (fun p hp => by rw [hB p hp]; rfl)]
  rw [List.append_nil, List.nil_append, sortByIdx_eq_of_sorted hS]

theorem enum_idem {α : Type} (o : JsObj α) :
    enumKeysOrder (enumKeysOrder o) = enumKeysOrder o :=
  enum_of_parts (fun p hp => mem_enum_parts_idx hp)
    (fun p hp => by have := List.of_mem_filter hp; simpa using this)
    (sortByIdx_sorted _)

theorem enum_filter_of_normal {α : Type} {o : JsObj α} (h : enumKeysOrder o = o)
    (q : String × α → Bool) : enumKeysOrder (o.filter q) = o.filter q := by
  have hXAB : o = sortByIdx (o.filter isIdxPair) ++
      o.filter (fun p => !(isIdxPair p)) := h.symm
  rw [hXAB, List.filter_append]
  exact enum_of_parts
    (fun p hp => mem_enum_parts_idx (List.mem_of_mem_filter hp))
    (fun p hp => by
      have := List.of_mem_filter (List.mem_of_mem_filter hp)
      simpa using this)
    ((sortByIdx_sorted _).sublist (List.filter_sublist _))

theorem enum_delete_of_normal {α : Type} {o : JsObj α} (h : enumKeysOrder o = o)
    (v : String) : enumKeysOrder (jsDelete o v) = jsDelete o v :=
  enum_filter_of_normal h _

theorem delete_enum_cons_parts {α : Type} {v : String} {b : α} {A B : JsObj α}
    (hA : ∀ p ∈ A, isIdxPair p = true) (hB : ∀ p ∈ B, isIdxPair p = false)
    (hS : List.Sorted idxLe A)
    (hv : v ∉ (A ++ B).map Prod.fst) (hnd : ((A ++ B).map Prod.fst).Nodup) :
    jsDelete (enumKeysOrder ((v, b) :: (A ++ B))) v = A ++ B := by
  rw [List.map_append] at hv hnd
  have hAv : v ∉ A.map Prod.fst := fun hm => hv (List.mem_append.mpr (Or.inl hm))
  have hBv : v ∉ B.map Prod.fst := fun hm => hv (List.mem_append.mpr (Or.inr hm))
  have hndA : (A.map Prod.fst).Nodup := List.Nodup.of_append_left hnd
  by_cases hvi : isIdxPair ((v, b) : String × α) = true
  · rw [enumKeysOrder, List.filter_cons_of_pos hvi, List.filter_append,
      List.filter_eq_self.mpr hA,
      List.filter_eq_nil_iff.mpr (fun p hp => by rw [hB p hp]; exact Bool.false_ne_true),
      List.append_nil,
      List.filter_cons_of_neg (by rw [hvi]; simp), List.filter_append,
      List.filter_eq_nil_iff.mpr (fun p hp => by simp [hA p hp]),
      List.filter_eq_self.mpr (fun p hp => by rw [hB p hp]; rfl),
      List.nil_append]
    rw [jsDelete_append]
    have hpermA : List.Perm (jsDelete (sortByIdx ((v, b) :: A)) v) A := by
      have h0 : List.Perm (jsDelete (sortByIdx ((v, b) :: A)) v)
          (jsDelete ((v, b) :: A) v) := (sortByIdx_perm _).filter _
      rwa [jsDelete_cons_self, jsDelete_eq_self_of_not_mem hAv] at h0
    have hmain : jsDelete (sortByIdx ((v, b) :: A)) v = A := by
      apply sorted_perm_eq_of_nodup_idx hpermA
      · exact (sortByIdx_sorted _).sublist (List.filter_sublist _)
      · exact hS
      · exact ((hpermA.map idxVal).nodup_iff).mpr (nodup_idxVal_of hA hndA)
    rw [hmain, jsDelete_eq_self_of_not_mem hBv]
  · have hvi' : isIdxPair ((v, b) : String × α) = false := Bool.eq_false_iff.mpr hvi
    rw [enumKeysOrder, List.filter_cons_of_neg hvi, List.filter_append,
      List.filter_eq_self.mpr hA,
      List.filter_eq_nil_iff.mpr (fun p hp => by rw [hB p hp]; exact Bool.false_ne_true),
      List.append_nil,
      List.filter_cons_of_pos (by rw [hvi']; rfl), List.filter_append,
      List.filter_eq_nil_iff.mpr (fun p hp => by simp [hA p hp]),
      List.filter_eq_self.mpr (fun p hp => by rw [hB p hp]; rfl),
      List.nil_append]
    rw [sortByIdx_eq_of_sorted hS, jsDelete_append,
      jsDelete_eq_self_of_not_mem hAv, jsDelete_cons_self,
      jsDelete_eq_self_of_not_mem hBv]

theorem delete_enum_cons {α : Type} {v : String} {b : α} {X : JsObj α}
    (hv : v ∉ X.map Prod.fst) (hnd : (X.map Prod.fst).Nodup)
    (hX : enumKeysOrder X = X) :
    jsDelete (enumKeysOrder ((v, b) :: X)) v = X := by
  have hXAB : X = sortByIdx (X.filter isIdxPair) ++
      X.filter (fun p => !(isIdxPair p)) := hX.symm
  rw [hXAB] at hv hnd ⊢
  exact delete_enum_cons_parts (fun p hp => mem_enum_parts_idx hp)
    (fun p hp => by have := List.of_mem_filter hp; simpa using this)
    (sortByIdx_sorted _) hv hnd

theorem jsSetAll_enum_cons {α : Type} {v : String} {b : α} {X : JsObj α}
    (hv : v ∉ X.map Prod.fst) (hnd : (X.map Prod.fst).Nodup)
    (hX : enumKeysOrder X = X) :
    jsSetAll [(v, b)] (enumKeysOrder ((v, b) :: X)) = (v, b) :: X := by
  have hkeys : (((v, b) :: X).map Prod.fst).Nodup := by
    rw [List.map_cons, List.nodup_cons]
    exact ⟨hv, hnd⟩
  have hperm : List.Perm (enumKeysOrder ((v, b) :: X)) ((v, b) :: X) :=
    enum_perm _
  have hennd : ((enumKeysOrder ((v, b) :: X)).map Prod.fst).Nodup :=
    ((hperm.map Prod.fst).nodup_iff).mpr hkeys
  rw [jsSetAll_front _ [] b (by simp) hennd (by simp)]
  rw [jsGet_of_mem_nodup hennd (hperm.mem_iff.mpr (List.mem_cons_self _ _))]
  rw [delete_enum_cons hv hnd hX]
  rfl

/-! ## The merge characterization -/

theorem jsSet_nil {α : Type} (k : String) (x : α) : jsSet [] k x = [(k, x)] := by
  simp [jsSet, jsHas]

theorem jsDelete_nil {α : Type} (v : String) : jsDelete ([] : JsObj α) v = [] := rfl

/-- The bucket stored under the project version after a merge: the old bucket
when the record serializes identically to one of its members, else the record
prepended to the old bucket. -/
def mergeBucket (log : BuildLog) (v : String) (r : BuildRecord) : List BuildRecord :=
  let bucket := (jsGet log v).getD []
  if serializeRecord r ∈ bucket.map serializeRecord then bucket else r :: bucket

/-- Characterization of the merge on a log with distinct keys: the result is
the merged bucket under the project version key in first position, followed by
the remaining entries of the log in enumeration order. -/
theorem mergeLog_eq (log : BuildLog) (v : String) (r : BuildRecord)
    (hnd : (log.map Prod.fst).Nodup) :
    mergeLog log v r = (v, mergeBucket log v r) :: jsDelete (enumKeysOrder log) v := by
  have hperm : List.Perm (enumKeysOrder log) log := enum_perm log
  have hEnd : ((enumKeysOrder log).map Prod.fst).Nodup :=
    ((hperm.map Prod.fst).nodup_iff).mpr hnd
  have hEnorm : enumKeysOrder (enumKeysOrder log) = enumKeysOrder log := enum_idem log
  have hsb0 : jsSpreadInto [] log = enumKeysOrder log := by
    rw [jsSpreadInto, jsSetAll_disjoint _ [] hEnd (fun k _ => rfl), List.nil_append]
  have hget : jsGet (enumKeysOrder log) v = jsGet log v := jsGet_perm_nodup hperm hEnd v
  have hdelnorm : enumKeysOrder (jsDelete (enumKeysOrder log) v) =
      jsDelete (enumKeysOrder log) v := enum_delete_of_normal hEnorm v
  have hfinal : ∀ bl2 : List BuildRecord,
      jsSpreadInto (jsSet [] v (r :: bl2)) (jsDelete (enumKeysOrder log) v) =
        (v, r :: bl2) :: jsDelete (enumKeysOrder log) v := by
    intro bl2
    rw [jsSet_nil, jsSpreadInto, hdelnorm,
      jsSetAll_front _ [] _ (by simp) (nodup_keys_delete v hEnd) (by simp),
      jsGet_eq_none_iff.mpr (not_mem_keys_delete _ _), Option.getD_none,
      jsDelete_delete, List.nil_append]
  have hfinal2 : ∀ bl2 : List BuildRecord,
      jsSpreadInto
        (jsSet [] v ((jsGet ((v, r :: bl2) :: jsDelete (enumKeysOrder log) v) v).getD []))
        ((v, r :: bl2) :: jsDelete (enumKeysOrder log) v) =
        (v, r :: bl2) :: jsDelete (enumKeysOrder log) v := by
    intro bl2
    rw [jsGet_cons_self, Option.getD_some, jsSet_nil, jsSpreadInto]
    exact jsSetAll_enum_cons (not_mem_keys_delete _ _) (nodup_keys_delete v hEnd) hdelnorm
  simp only [mergeLog, mergeBucket]
  rw [hsb0]
  by_cases hv : jsHas (enumKeysOrder log) v = true
  · obtain ⟨bl, hbE⟩ := Option.isSome_iff_exists.mp (jsGet_isSome_of_has hv)
    have hblog : jsGet log v = some bl := by rw [← hget, hbE]
    rw [if_pos hv, hbE, hblog, Option.getD_some]
    by_cases hdup : serializeRecord r ∈ List.map serializeRecord bl
    · rw [if_pos hdup, if_pos hdup]
      rw [hbE, Option.getD_some]
      rw [jsSet_nil, jsSpreadInto, hEnorm,
        jsSetAll_front _ [] bl (by simp) hEnd (by simp),
        hbE, Option.getD_some, List.nil_append]
    · rw [if_neg hdup, if_neg hdup]
      rw [hfinal bl]
      exact hfinal2 bl
  · have hv' : jsHas (enumKeysOrder log) v = false := Bool.eq_false_iff.mpr hv
    have hvE : v ∉ (enumKeysOrder log).map Prod.fst := jsHas_false_iff.mp hv'
    have hgetnone : jsGet log v = none :=
      jsGet_eq_none_iff.mpr (fun hm => hvE (((hperm.map Prod.fst).mem_iff).mpr hm))
    rw [if_neg hv, jsSet_of_not_has hv',
      jsGet_append_singleton hvE ([] : List BuildRecord), Option.getD_some,
      hgetnone, Option.getD_none, List.map_nil,
      if_neg (List.not_mem_nil _), if_neg (List.not_mem_nil _),
      jsDelete_append, jsDelete_cons_self, jsDelete_nil, List.append_nil]
    rw [hfinal []]
    exact hfinal2 []

/-! ## Concrete fixtures -/

/-- An environment in which every spawn fails. -/
def envNull : SpawnEnv := fun _ => ⟨none, "", ""⟩

/-- An environment in which two distinct candidates both succeed with
different outputs. -/
def envTwo : SpawnEnv := fun c =>
  if c = ["first"] then ⟨some 0, "1.0", ""⟩ else ⟨some 0, "2.0", ""⟩

/-- An environment in which the candidate exits 0 and prints only an ANSI
color escape sequence. -/
def envAnsi : SpawnEnv := fun _ => ⟨some 0, "\u001b[31m", ""⟩

/-- A small build record. -/
def recGit1 : BuildRecord := ⟨"linux", [("git", some "1")]⟩

/-- A record whose executables map lists git before npm. -/
def recAB : BuildRecord := ⟨"linux", [("git", some "a"), ("npm", some "b")]⟩

/-- The same executables content as recAB with the two keys in the other
insertion order. -/
def recBA : BuildRecord := ⟨"linux", [("npm", some "b"), ("git", some "a")]⟩

/-! ## C1 -/

/-- C1 counterexample: both candidates succeed; the first succeeding
candidate's stripped output is "1.0", yet probe returns "2.0" — the loop has
no break, every candidate runs, and the last success overwrites the first. -/
theorem probe_not_first_success :
    probe envTwo [["first"], ["second"]] = some "2.0" ∧
    succeedsB envTwo ["first"] = true ∧
    stripAnsi (combinedOutput (envTwo ["first"])) = "1.0" ∧
    some "2.0" ≠ some ("1.0" : String) := by
  refine ⟨by decide, by decide, by decide, by decide⟩

/-- C1 amended: probe returns the ANSI-stripped output of the LAST succeeding
candidate (exit status 0 with non-empty combined trimmed output); candidates
after an earlier success are still executed and overwrite it. -/
theorem probe_last_success (env : SpawnEnv) (cmds : List (List String))
    (c : List String) (h : (cmds.filter (succeedsB env)).getLast? = some c) :
    probe env cmds = some (stripAnsi (combinedOutput (env c))) :=
  foldl_candidateStep_last cmds none h

/-- C1 witness: the amended claim evaluated on the two-success environment. -/
theorem probe_last_success_witness :
    (([["first"], ["second"]].filter (succeedsB envTwo)).getLast? = some ["second"]) ∧
    probe envTwo [["first"], ["second"]] =
      some (stripAnsi (combinedOutput (envTwo ["second"]))) :=
  ⟨by decide, probe_last_success envTwo [["first"], ["second"]] ["second"] (by decide)⟩

/-! ## C4 -/

/-- C4 counterexample: a candidate exiting 0 whose output is entirely one
ANSI escape sequence is treated as a success, storing the empty string: the
emptiness test happens before stripping, so the outcome is non-absent. -/
theorem probe_ansi_only_output_not_miss :
    probe envAnsi [["c"]] = some "" ∧
    stripAnsi (combinedOutput (envAnsi ["c"])) = "" ∧
    (some "" : Option String) ≠ none := by
  refine ⟨by decide, by decide, by decide⟩

/-- C4 amended: probe returns a non-absent value iff some candidate exits
with status 0 and non-empty combined trimmed output BEFORE ANSI stripping;
when no candidate does, the outcome is null (absence), not an error. -/
theorem probe_isSome_iff_any_success (env : SpawnEnv) (cmds : List (List String)) :
    (probe env cmds).isSome = cmds.any (succeedsB env) := by
  rw [probe, foldl_candidateStep_isSome cmds none]
  rfl

/-! ## C5 -/

/-- C5 counterexample: a trackable with no versionCommands raises nothing;
the call completes normally and records a null probe outcome for it. -/
theorem malformed_trackable_no_error :
    getUpdatedPackageObject envNull "linux" (some "1.0.0")
      (some [⟨some "git", none⟩]) [] =
      [("1.0.0", [⟨"linux", [("git", none)]⟩])] := by
  decide

/-- C5 amended: a trackable lacking a non-empty command list is silently
tolerated, never an error: the call proceeds and merges a record mapping the
trackable's key (the string "undefined" when the name is missing) to null. -/
theorem malformed_trackable_tolerated (env : SpawnEnv) (platform : String)
    (version : Option String) (log : BuildLog) (t : RawTrackable)
    (h : t.versionCommands = none ∨ t.versionCommands = some []) :
    getUpdatedPackageObject env platform version (some [t]) log =
      mergeLog log (version.getD "0.0.0") ⟨platform, [(jsKeyOf t.name, none)]⟩ := by
  have hrec : buildRecord env platform [t] = ⟨platform, [(jsKeyOf t.name, none)]⟩ := by
    rw [buildRecord, buildExecutables]
    rcases h with h | h
    · simp [trackStep, h, jsSet_nil]
    · simp only [List.foldl_cons, List.foldl_nil, trackStep, h]
      rw [jsSet_nil]
      simp [jsSet, jsHas, probe]
  rw [getUpdatedPackageObject, Option.getD_some, hrec]

/-- C5 witness: the amended claim evaluated on a trackable that lacks both a
name and a non-empty command list. -/
theorem malformed_trackable_tolerated_witness :
    ((⟨none, some []⟩ : RawTrackable).versionCommands = none ∨
      (⟨none, some []⟩ : RawTrackable).versionCommands = some []) ∧
    getUpdatedPackageObject envNull "darwin" none (some [⟨none, some []⟩]) [] =
      mergeLog [] ((none : Option String).getD "0.0.0")
        ⟨"darwin", [(jsKeyOf (none : Option String), none)]⟩ :=
  ⟨Or.inr rfl,
    malformed_trackable_tolerated envNull "darwin" none [] ⟨none, some []⟩ (Or.inr rfl)⟩

/-! ## C10 -/

/-- C10: when versionTracker.track is not an array the default trackables
node, npm and git are substituted and probed, and when the version field is
not a string the project version used for the merge is "0.0.0". -/
theorem defaults_substituted (env : SpawnEnv) (platform : String)
    (version : Option String) (track : Option (List RawTrackable))
    (log : BuildLog) :
    (getUpdatedPackageObject env platform version none log =
      getUpdatedPackageObject env platform version (some defaultTrackingInfo) log) ∧
    (getUpdatedPackageObject env platform none track log =
      getUpdatedPackageObject env platform (some "0.0.0") track log) ∧
    (buildRecord env platform defaultTrackingInfo =
      ⟨platform, [("node", probe env [["node", "--version"]]),
                  ("npm", probe env [["npm", "-v"]]),
                  ("git", probe env [["git", "--version"]])]⟩) := by
  refine ⟨rfl, rfl, ?_⟩
  rw [buildRecord, buildExecutables, defaultTrackingInfo]
  simp [trackStep, jsKeyOf, jsSet, jsHas]

/-! ## C2 -/

/-- C2 counterexample: merging a record already present in the bucket of a
version that is not the first key does NOT return the log unchanged: the
unconditional final reorder still moves that version's key to the front. -/
theorem merge_duplicate_changes_key_order :
    jsKeys (mergeLog [("a", [recGit1]), ("b", [recGit1])] "b" recGit1) = ["b", "a"] ∧
    jsKeys [("a", [recGit1]), ("b", [recGit1])] = ["a", "b"] ∧
    mergeLog [("a", [recGit1]), ("b", [recGit1])] "b" recGit1 ≠
      [("a", [recGit1]), ("b", [recGit1])] := by
  refine ⟨by decide, by decide, by decide⟩

/-- C2 amended: merging a duplicate record leaves every bucket unchanged but
still performs the move-to-front reorder: the result is the untouched bucket
under the version key in first position, followed by the other entries of the
log in enumeration order. The log is returned truly unchanged only when the
version key is already first. -/
theorem merge_duplicate_same_buckets (log : BuildLog) (v : String)
    (r : BuildRecord) (hnd : (log.map Prod.fst).Nodup)
    (hdup : serializeRecord r ∈ ((jsGet log v).getD []).map serializeRecord) :
    mergeLog log v r = (v, (jsGet log v).getD []) :: jsDelete (enumKeysOrder log) v := by
  rw [mergeLog_eq log v r hnd]
  simp only [mergeBucket]
  rw [if_pos hdup]

/-- C2 witness: the amended claim evaluated on a two-version log whose
second key receives a duplicate record. -/
theorem merge_duplicate_same_buckets_witness :
    (serializeRecord recGit1 ∈
      ((jsGet [("a", [recGit1]), ("b", [recGit1])] "b").getD []).map serializeRecord) ∧
    mergeLog [("a", [recGit1]), ("b", [recGit1])] "b" recGit1 =
      ("b", (jsGet [("a", [recGit1]), ("b", [recGit1])] "b").getD []) ::
        jsDelete (enumKeysOrder [("a", [recGit1]), ("b", [recGit1])]) "b" :=
  ⟨by decide,
    merge_duplicate_same_buckets [("a", [recGit1]), ("b", [recGit1])] "b" recGit1
      (by decide) (by decide)⟩

/-! ## C3 -/

/-- C3 counterexample: the merged version is NOT always the first key. When
the log holds the array-index-like key "5", JavaScript enumeration lists it
before the freshly merged key "1.0.0". -/
theorem merge_version_not_first_key :
    jsKeys (mergeLog [("5", [recGit1])] "1.0.0" recAB) = ["5", "1.0.0"] ∧
    ("5" : String) ≠ "1.0.0" := by
  refine ⟨by decide, by decide⟩

/-- C3 amended: provided no key of the log other than the merged version is
an array-index string (a canonical decimal numeral below 2^32 - 1), the
merged version is the first key of the result and all other keys retain
their previous relative order. Array-index keys always enumerate first in
ascending numeric order, before the merged version. -/
theorem merge_version_first_key (log : BuildLog) (v : String) (r : BuildRecord)
    (hnd : (log.map Prod.fst).Nodup)
    (hidx : ∀ k ∈ log.map Prod.fst, k = v ∨ keyAsIndex k = none) :
    jsKeys (mergeLog log v r) =
      v :: (log.map Prod.fst).filter (fun s => !(s == v)) := by
  rw [mergeLog_eq log v r hnd]
  have hidxpair : ∀ p ∈ log, p.1 ≠ v → isIdxPair p = false := by
    intro p hp hpv
    rcases hidx p.1 (List.mem_map.mpr ⟨p, hp, rfl⟩) with h | h
    · exact absurd h hpv
    · rw [isIdxPair, h]
      rfl
  have hD : jsDelete (enumKeysOrder log) v = jsDelete log v := by
    cases hvi : keyAsIndex v with
    | none =>
      have hall : ∀ p ∈ log, isIdxPair p = false := by
        intro p hp
        by_cases hpv : p.1 = v
        · rw [isIdxPair, hpv, hvi]
          rfl
        · exact hidxpair p hp hpv
      have : enumKeysOrder log = log := by
        have h0 : enumKeysOrder ([] ++ log) = [] ++ log :=
          enum_of_parts (fun p hp => absurd hp (List.not_mem_nil p)) hall
            List.sorted_nil
        rwa [List.nil_append] at h0
      rw [this]
    | some n =>
      rw [enumKeysOrder, jsDelete_append]
      have h1 : jsDelete (sortByIdx (log.filter isIdxPair)) v = [] := by
        apply List.filter_eq_nil_iff.mpr
        intro p hp
        have hpidx : isIdxPair p = true := mem_enum_parts_idx hp
        have hpl : p ∈ log :=
          List.mem_of_mem_filter ((sortByIdx_perm _).mem_iff.mp hp)
        have hpv : p.1 = v := by
          by_contra hne
          rw [hidxpair p hpl hne] at hpidx
          exact Bool.false_ne_true hpidx
        simp [hpv]
      have h2 : jsDelete (log.filter (fun p => !(isIdxPair p))) v =
          log.filter (fun p => !(isIdxPair p)) := by
        apply jsDelete_eq_self_of_not_mem
        intro hm
        obtain ⟨p, hp, hpv⟩ := List.mem_map.mp hm
        have hpl : p ∈ log := List.mem_of_mem_filter hp
        have hpn := List.of_mem_filter hp
        have hidxp : isIdxPair p = true := by
          rw [isIdxPair, hpv, hvi]
          rfl
        simp [hidxp] at hpn
      rw [h1, h2, List.nil_append]
      apply List.filter_congr
      intro p hp
      by_cases hpv : p.1 = v
      · have : isIdxPair p = true := by
          rw [isIdxPair, hpv, hvi]
          rfl
        rw [this]
        simp [hpv]
      · rw [hidxpair p hp hpv]
        simp [hpv]
  rw [hD]
  have hDnoidx : ∀ p ∈ jsDelete log v, isIdxPair p = false := by
    intro p hp
    rw [jsDelete] at hp
    have hpl : p ∈ log := List.mem_of_mem_filter hp
    have hpv := List.of_mem_filter hp
    have hpv' : p.1 ≠ v := by simpa using hpv
    exact hidxpair p hpl hpv'
  have henum : enumKeysOrder ((v, mergeBucket log v r) :: jsDelete log v) =
      (v, mergeBucket log v r) :: jsDelete log v := by
    cases hvi : isIdxPair ((v, mergeBucket log v r) : String × List BuildRecord) with
    | true =>
      have h0 := enum_of_parts (A := [(v, mergeBucket log v r)]) (B := jsDelete log v)
        (fun p hp => by rw [List.mem_singleton.mp hp]; exact hvi)
        hDnoidx (List.sorted_singleton _)
      rwa [List.singleton_append] at h0
    | false =>
      have h0 := enum_of_parts (A := []) (B := (v, mergeBucket log v r) :: jsDelete log v)
        (fun p hp => absurd hp (List.not_mem_nil p))
        (fun p hp => by
          rcases List.mem_cons.mp hp with he | hm
          · rw [he]
            exact hvi
          · exact hDnoidx p hm)
        List.sorted_nil
      rwa [List.nil_append] at h0
  rw [jsKeys, henum, List.map_cons, keys_delete]

/-- C3 witness: the amended claim evaluated on a log with two ordinary
version keys, merging into the second. -/
theorem merge_version_first_key_witness :
    ((([("1.0.0", [recGit1]), ("2.0.0", [recAB])] : BuildLog).map Prod.fst).Nodup) ∧
    (∀ k ∈ ([("1.0.0", [recGit1]), ("2.0.0", [recAB])] : BuildLog).map Prod.fst,
      k = "2.0.0" ∨ keyAsIndex k = none) ∧
    jsKeys (mergeLog [("1.0.0", [recGit1]), ("2.0.0", [recAB])] "2.0.0" recBA) =
      "2.0.0" :: (([("1.0.0", [recGit1]), ("2.0.0", [recAB])] : BuildLog).map
        Prod.fst).filter (fun s => !(s == "2.0.0")) :=
  ⟨by decide, by decide,
    merge_version_first_key [("1.0.0", [recGit1]), ("2.0.0", [recAB])] "2.0.0" recBA
      (by decide) (by decide)⟩

/-! ## C6 -/

theorem mergeBucket_eq (log : BuildLog) (v : String) (r : BuildRecord) :
    mergeBucket log v r =
      if serializeRecord r ∈ ((jsGet log v).getD []).map serializeRecord
      then (jsGet log v).getD [] else r :: (jsGet log v).getD [] := rfl

/-- C6: the merge is idempotent on logs with distinct keys: merging the same
record into the same version twice gives the same log as merging it once. -/
theorem merge_idempotent (log : BuildLog) (v : String) (r : BuildRecord)
    (hnd : (log.map Prod.fst).Nodup) :
    mergeLog (mergeLog log v r) v r = mergeLog log v r := by
  have hperm := enum_perm log
  have hEnd : ((enumKeysOrder log).map Prod.fst).Nodup :=
    ((hperm.map Prod.fst).nodup_iff).mpr hnd
  have hDnd : ((jsDelete (enumKeysOrder log) v).map Prod.fst).Nodup :=
    nodup_keys_delete v hEnd
  have hDv : v ∉ (jsDelete (enumKeysOrder log) v).map Prod.fst :=
    not_mem_keys_delete _ _
  have hDnorm := enum_delete_of_normal (enum_idem log) v
  have h1 := mergeLog_eq log v r hnd
  have hMnd : ((mergeLog log v r).map Prod.fst).Nodup := by
    rw [h1, List.map_cons, List.nodup_cons]
    exact ⟨hDv, hDnd⟩
  rw [mergeLog_eq (mergeLog log v r) v r hMnd]
  have hget : jsGet (mergeLog log v r) v = some (mergeBucket log v r) := by
    rw [h1]
    exact jsGet_cons_self v (mergeBucket log v r) _
  have hmem : serializeRecord r ∈ (mergeBucket log v r).map serializeRecord := by
    rw [mergeBucket_eq]
    split_ifs with h
    · exact h
    · rw [List.map_cons]
      exact List.mem_cons_self _ _
  have hmb : mergeBucket (mergeLog log v r) v r = mergeBucket log v r := by
    rw [mergeBucket_eq (mergeLog log v r), hget, Option.getD_some, if_pos hmem]
  have hdel : jsDelete (enumKeysOrder (mergeLog log v r)) v =
      jsDelete (enumKeysOrder log) v := by
    rw [h1]
    exact delete_enum_cons hDv hDnd hDnorm
  rw [hmb, hdel]
  exact h1.symm

/-- C6 witness: idempotence evaluated on a log with an array-index-like key
and a fresh record. -/
theorem merge_idempotent_witness :
    mergeLog (mergeLog [("5", [recGit1])] "1.0.0" recAB) "1.0.0" recAB =
      mergeLog [("5", [recGit1])] "1.0.0" recAB :=
  merge_idempotent [("5", [recGit1])] "1.0.0" recAB (by decide)

/-! ## C7 -/

/-- The bucket dedup invariant: no bucket of the log holds two records with
identical JSON serializations (the structural equality the code uses). -/
def NoDupBuckets (log : BuildLog) : Prop :=
  ∀ p ∈ log, ((p.2.map serializeRecord).Nodup)

instance (log : BuildLog) : Decidable (NoDupBuckets log) := by
  unfold NoDupBuckets
  infer_instance

/-- C7: the merge preserves the invariant that no bucket contains two
structurally equal (identically serializing) records. -/
theorem merge_preserves_no_dup_buckets (log : BuildLog) (v : String)
    (r : BuildRecord) (hnd : (log.map Prod.fst).Nodup)
    (hinv : NoDupBuckets log) : NoDupBuckets (mergeLog log v r) := by
  intro p hp
  rw [mergeLog_eq log v r hnd] at hp
  have hbnd : (((jsGet log v).getD []).map serializeRecord).Nodup := by
    cases hg : jsGet log v with
    | none => simp
    | some bl =>
      rw [Option.getD_some]
      exact hinv (v, bl) (jsGet_mem hg)
  rcases List.mem_cons.mp hp with he | hm
  · rw [he]
    show ((mergeBucket log v r).map serializeRecord).Nodup
    rw [mergeBucket_eq]
    split_ifs with h
    · exact hbnd
    · rw [List.map_cons, List.nodup_cons]
      exact ⟨h, hbnd⟩
  · apply hinv
    rw [jsDelete] at hm
    exact (enum_perm log).mem_iff.mp (List.mem_of_mem_filter hm)

/-- C7 witness: invariant preservation evaluated on a log whose bucket
already holds a record equal to the merged one. -/
theorem merge_preserves_no_dup_buckets_witness :
    (([("1.0.0", [recAB, recBA])] : BuildLog).map Prod.fst).Nodup ∧
    NoDupBuckets [("1.0.0", [recAB, recBA])] ∧
    NoDupBuckets (mergeLog [("1.0.0", [recAB, recBA])] "1.0.0" recAB) :=
  ⟨by decide, by decide,
    merge_preserves_no_dup_buckets [("1.0.0", [recAB, recBA])] "1.0.0" recAB
      (by decide) (by decide)⟩

/-! ## C8 -/

/-- C8: merging a record that serializes differently from every record of
the version's bucket stores the record as the new first element of that
bucket, with the old bucket unchanged below it. -/
theorem merge_new_record_prepends (log : BuildLog) (v : String)
    (r : BuildRecord) (hnd : (log.map Prod.fst).Nodup)
    (hnew : serializeRecord r ∉ ((jsGet log v).getD []).map serializeRecord) :
    jsGet (mergeLog log v r) v = some (r :: (jsGet log v).getD []) := by
  rw [mergeLog_eq log v r hnd, jsGet_cons_self, mergeBucket_eq, if_neg hnew]

/-- C8 witness: the prepend evaluated on a log with an existing record in
the bucket. -/
theorem merge_new_record_prepends_witness :
    (([("1.0.0", [recAB])] : BuildLog).map Prod.fst).Nodup ∧
    serializeRecord recGit1 ∉
      ((jsGet [("1.0.0", [recAB])] "1.0.0").getD []).map serializeRecord ∧
    jsGet (mergeLog [("1.0.0", [recAB])] "1.0.0" recGit1) "1.0.0" =
      some (recGit1 :: (jsGet [("1.0.0", [recAB])] "1.0.0").getD []) :=
  ⟨by decide, by decide,
    merge_new_record_prepends [("1.0.0", [recAB])] "1.0.0" recGit1
      (by decide) (by decide)⟩

/-! ## C9 -/

/-- C9 counterexample: a record whose executables object holds the same
entries as a bucket record but in a different insertion order is NOT treated
as a duplicate: JSON.stringify serializes the keys in enumeration order, so
the two serialize differently and the record is added to the bucket. -/
theorem merge_key_order_sensitive :
    List.Perm recBA.executables recAB.executables ∧
    recBA.platform = recAB.platform ∧
    serializeRecord recBA ≠ serializeRecord recAB ∧
    ((jsGet (mergeLog [("1.0.0", [recAB])] "1.0.0" recBA) "1.0.0").getD []).length = 2 := by
  refine ⟨by decide, by decide, by decide, by decide⟩

/-- C9 amended: deduplication compares exact JSON serializations, in which
the executables key order (enumeration order) is significant: the merged
bucket keeps the old bucket exactly when the record's serialization matches
a member, and otherwise gains the record at the front — equality as
unordered maps plays no role. -/
theorem merge_dedup_by_serialization (log : BuildLog) (v : String)
    (r : BuildRecord) (hnd : (log.map Prod.fst).Nodup) :
    jsGet (mergeLog log v r) v =
      some (if serializeRecord r ∈ ((jsGet log v).getD []).map serializeRecord
            then (jsGet log v).getD [] else r :: (jsGet log v).getD []) := by
  rw [mergeLog_eq log v r hnd, jsGet_cons_self, mergeBucket_eq]

/-- C9 witness: the serialization-based dedup characterization evaluated on
the permuted-executables record. -/
theorem merge_dedup_by_serialization_witness :
    (([("1.0.0", [recAB])] : BuildLog).map Prod.fst).Nodup ∧
    jsGet (mergeLog [("1.0.0", [recAB])] "1.0.0" recBA) "1.0.0" =
      some (if serializeRecord recBA ∈
              ((jsGet [("1.0.0", [recAB])] "1.0.0").getD []).map serializeRecord
            then (jsGet [("1.0.0", [recAB])] "1.0.0").getD []
            else recBA :: (jsGet [("1.0.0", [recAB])] "1.0.0").getD []) :=
  ⟨by decide,
    merge_dedup_by_serialization [("1.0.0", [recAB])] "1.0.0" recBA (by decide)⟩

/-! ## Supporting examples from the specification -/

/-- ANSI stripping removes color escapes around text. -/
theorem stripAnsi_red_hello : stripAnsi "\u001b[31mhello\u001b[0m" = "hello" := by
  decide

/-- ANSI stripping leaves plain text unchanged. -/
theorem stripAnsi_plain : stripAnsi "git version 2.34.1" = "git version 2.34.1" := by
  decide
